import Mathlib

/-!
Verification of the name-matcher core of The-Bread-Box repository
(file src/Name Generator/generator.py).

The development shallowly embeds the three core components:

* the Distance Engine (`_weighted_levenshtein_distance`), both as the pure
  recurrence `wld` (the denotation of the code with an empty cache) and as
  the faithful memoized computation `wldMemo` threading the cache state;
* the Ranker (`best_breads_for_name`), with the corpus passed as a list
  standing for the iteration order of the Python set `every_bread`
  (corpus acquisition is an external collaborator per the specification);
* the Corpus Normalizer (`_normalize_bread_name`), embedded as
  `normalize_bread_name`.

Strings are embedded as `List Char`; Python numbers as `ℚ`; Python sets of
strings as `Finset (List Char)`.
-/

/- Batteries marks rational arithmetic irreducible; concrete runs of the
embedded code are evaluated by `decide`, which needs these definitions to
unfold. -/
attribute [local semireducible] Rat.add Rat.mul Rat.sub

/-- Weight configuration held by a `BreadBoxNameGenerator` instance: the
three multipliers set in `__init__`. -/
structure WeightCfg where
  insertion_cost : ℚ
  deletion_cost : ℚ
  substitution_cost : ℚ
deriving DecidableEq

/-- Executable minimum on `ℚ`, as the two-argument core of the Python
builtin `min` (returns the first argument on ties). -/
def rmin (x y : ℚ) : ℚ := if x ≤ y then x else y

/-- Inner loop of the dynamic program: given row `i` of the table (as the
function `prev`), compute row `i+1`.  Cell `(i+1, j+1)` mirrors the
recursive case of `_weighted_levenshtein_distance`:
`min(d(i-1,j) + insertion_cost * 1, d(i,j-1) + deletion_cost * 1,
d(i-1,j-1) + substitution_cost * sub_cost)` where `sub_cost` is `0` when
`a[i-1] == b[j-1]` and `1` otherwise.  The row split makes the definition
structurally recursive, hence kernel-computable; it is the same recurrence
as the source. -/
def wldRow (cfg : WeightCfg) (a b : List Char) (i : ℕ) (prev : ℕ → ℚ) : ℕ → ℚ
  | 0 => ((i + 1 : ℕ) : ℚ)
  | j + 1 =>
    rmin (prev (j + 1) + cfg.insertion_cost * 1)
      (rmin (wldRow cfg a b i prev j + cfg.deletion_cost * 1)
        (prev j + cfg.substitution_cost *
          (if a.getD i ' ' = b.getD j ' ' then 0 else 1)))

/-- The weighted Levenshtein table of `_weighted_levenshtein_distance` with
an empty cache: `wld cfg a b i j` is the distance between the first `i`
characters of `a` and the first `j` characters of `b`.  Base cases return
the raw length of the other prefix (unweighted), exactly as the source
lines `if i == 0: return j` and `if j == 0: return i`. -/
def wld (cfg : WeightCfg) (a b : List Char) : ℕ → ℕ → ℚ
  | 0 => fun j => (j : ℚ)
  | i + 1 => wldRow cfg a b i (wld cfg a b i)

/-- The contract `distance(a, b, cfg)` of the Distance Engine: the full
table entry at the two string lengths, i.e. the value the source returns
for a top-level call (where `i` and `j` default to `len(a)` and `len(b)`). -/
def distance (cfg : WeightCfg) (a b : List Char) : ℚ :=
  wld cfg a b a.length b.length

/-! ### The memoized engine, with its cache state made explicit -/

/-- Key of the process-wide memo dictionary: the tuple `(a, b, i, j)` as
passed to `_weighted_levenshtein_distance`, with `i` and `j` still
optional, exactly as Python builds it (both are `None` at a top-level
call). -/
abbrev MemoKey := List Char × List Char × Option ℕ × Option ℕ

/-- The memo dictionary, as an association list; a later binding for a key
shadows an earlier one, which matches dictionary assignment. -/
abbrev Memo := List (MemoKey × ℚ)

/-- Dictionary read with membership test: the `if (a, b, i, j) in memo`
check of the source followed by the read `memo[a, b, i, j]`. -/
def memoLookup (m : Memo) (k : MemoKey) : Option ℚ :=
  match m with
  | [] => none
  | (k₀, v) :: rest => if k₀ = k then some v else memoLookup rest k

/-- Faithful embedding of `_weighted_levenshtein_distance` together with
its memo: the result is the returned value paired with the memo state
after the call.  The recursion of the source terminates because `i + j`
shrinks at every recursive call; here that is expressed through a fuel
argument kept strictly above `i + j`, which makes the definition
structurally recursive and hence executable (the fuel case is never
reached when the wrapper below supplies the fuel; see the theorem for
claim C3).  The steps follow the source in order: the memo test on the
raw key, the defaulting of `i` and `j` to the string lengths, the two
unweighted base cases (which the source does not store), the three
recursive calls evaluated left to right with each call seeing the memo
updates of the previous one, and finally the store of the weighted
minimum under the defaulted key. -/
def wldMemo (cfg : WeightCfg) :
    ℕ → List Char → List Char → Option ℕ → Option ℕ → Memo → ℚ × Memo
  | 0, _, _, _, _, memo => (0, memo)
  | fuel + 1, a, b, i, j, memo =>
    match memoLookup memo (a, b, i, j) with
    | some v => (v, memo)
    | none =>
      let i0 := i.getD a.length
      let j0 := j.getD b.length
      if i0 = 0 then ((j0 : ℚ), memo)
      else if j0 = 0 then ((i0 : ℚ), memo)
      else
        let r1 := wldMemo cfg fuel a b (some (i0 - 1)) (some j0) memo
        let r2 := wldMemo cfg fuel a b (some i0) (some (j0 - 1)) r1.2
        let r3 := wldMemo cfg fuel a b (some (i0 - 1)) (some (j0 - 1)) r2.2
        let v := rmin (r1.1 + cfg.insertion_cost * 1)
          (rmin (r2.1 + cfg.deletion_cost * 1)
            (r3.1 + cfg.substitution_cost *
              (if a.getD (i0 - 1) ' ' = b.getD (j0 - 1) ' ' then 0 else 1)))
        (v, ((a, b, some i0, some j0), v) :: r3.2)

/-- A call `_weighted_levenshtein_distance(a, b)` as the ranker makes it:
`i` and `j` left at `None`, run against a given state of the process-wide
memo (which is `{}` at process start). -/
def weighted_levenshtein_distance (cfg : WeightCfg) (a b : List Char) (memo : Memo) :
    ℚ × Memo :=
  wldMemo cfg (a.length + b.length + 1) a b none none memo

/-! ### The ranker -/

/-- Lowercasing as the ranker applies it (`name.lower()`, `bread.lower()`);
`Char.toLower` lowers the ASCII letters, the range the rest of the code
works over. -/
def pyLower (s : List Char) : List Char := s.map Char.toLower

/-- Ranking core of `best_breads_for_name`.  The set `every_bread` is
assembled by the out-of-scope corpus collaborators (static JSON terms,
optionally unioned with scraped entries); it enters here as a list giving
the iteration order of that set.  Per-reference scores come from the
Distance Engine; the embedding uses the cache-free denotation `distance`
of `_weighted_levenshtein_distance` (the theorem for claim C3 relates the
memoized computation to it).  `threading` is the optional thread count;
Python truthiness makes both `None` and `0` skip the thread-pool branch
and run the sequential `sorted` call.  On the pool branch,
`ThreadPool(n)` raises `ValueError("Number of processes must be at least
1")` for `n < 1` before any work is done (CPython multiprocessing.pool),
modelled as the error case; for valid `n`, `pool.map` returns results in
input order, so the branch maps every bread to its `(bread, weight)` pair,
sorts by weight, and projects the names.  The builtin `sorted` with a key
is a stable ascending sort and is embedded as `List.insertionSort`, the
canonical stable sort. -/
def best_breads_for_name (cfg : WeightCfg) (every_bread : List (List Char))
    (name : List Char) (threading : Option ℤ) : Except String (List (List Char)) :=
  let key := fun bread => distance cfg (pyLower name) (pyLower bread)
  match threading with
  | some n =>
    if n = 0 then
      .ok (every_bread.insertionSort (fun x y => key x ≤ key y))
    else if n < 1 then
      .error "Number of processes must be at least 1"
    else
      let bread_weights := every_bread.map (fun bread => (bread, key bread))
      .ok ((bread_weights.insertionSort (fun x y => x.2 ≤ y.2)).map (fun bw => bw.1))
  | none => .ok (every_bread.insertionSort (fun x y => key x ≤ key y))

/-! ### The corpus normalizer -/

/-- Core of `str.replace(pat, "")`: scan left to right and drop every
non-overlapping occurrence of the nonempty pattern `pat`.  Every step
consumes at least one character, so the fuel supplied by the wrapper
below (the length of the string) never runs out. -/
def removeOcc (pat : List Char) : ℕ → List Char → List Char
  | _, [] => []
  | 0, s => s
  | fuel + 1, c :: rest =>
    if pat ≠ [] ∧ pat.isPrefixOf (c :: rest) then
      removeOcc pat fuel (rest.drop (pat.length - 1))
    else c :: removeOcc pat fuel rest

/-- `s.replace(pat, "")`, the scrubbing primitive of the normalizer. -/
def strReplaceEmpty (s pat : List Char) : List Char := removeOcc pat s.length s

/-- Core of `str.split(pat)` for a nonempty pattern: split on every
non-overlapping occurrence, left to right; adjacent separators produce
empty pieces, as with the Python method.  Fuel as in `removeOcc`. -/
def splitOcc (pat : List Char) : ℕ → List Char → List (List Char)
  | _, [] => [[]]
  | 0, s => [s]
  | fuel + 1, c :: rest =>
    if pat ≠ [] ∧ pat.isPrefixOf (c :: rest) then
      [] :: splitOcc pat fuel (rest.drop (pat.length - 1))
    else
      match splitOcc pat fuel rest with
      | [] => [[c]]
      | t :: ts => (c :: t) :: ts

/-- `s.split(pat)` for a nonempty pattern. -/
def pySplit (s pat : List Char) : List (List Char) := splitOcc pat s.length s

/-- `str.strip()`: drop whitespace from both ends. -/
def pyStrip (s : List Char) : List Char :=
  ((s.dropWhile Char.isWhitespace).reverse.dropWhile Char.isWhitespace).reverse

/-- One iteration of the inner loop of `_normalize_bread_name` at index
`i` of a chunk: when the character is an uppercase ASCII letter (ordinal
65 to 90) and its predecessor is neither a space nor an apostrophe
(ordinal 39), the slice from the current token start up to `i` joins the
component set and the token start moves to `i`; index 0 is skipped.  The
state is the pair of the component set and the token start `last_i`. -/
def chunkStep (chunk : List Char) (st : Finset (List Char) × ℕ) (i : ℕ) :
    Finset (List Char) × ℕ :=
  if i = 0 then st
  else
    let c := chunk.getD i ' '
    let prev := chunk.getD (i - 1) ' '
    if 65 ≤ c.toNat ∧ c.toNat ≤ 90 ∧ ¬(prev = ' ' ∨ prev = Char.ofNat 39) then
      (insert ((chunk.drop st.2).take (i - st.2)) st.1, i)
    else st

/-- Tokens contributed by one chunk: the loop over `enumerate(chunk)`
followed by the trailing `components.add(chunk[last_i:len(chunk)])` of
the for-else clause, which always runs because the loop has no break;
`last_i` is reset to 0 before every chunk. -/
def chunkTokens (chunk : List Char) : Finset (List Char) :=
  let st := (List.range chunk.length).foldl (chunkStep chunk) (∅, 0)
  insert ((chunk.drop st.2).take (chunk.length - st.2)) st.1

/-- First element of `illegal_characters`: a double quote (ordinal 34). -/
def illegalQuote : List Char := [Char.ofNat 34]

/-- Second element of `illegal_characters`: the three-character
mis-decoded right-single-quote sequence. -/
def illegalMojibake : List Char := ['â', '€', '™']

/-- Embedding of `_normalize_bread_name`: scrub the illegal character
sequences (the two removals touch disjoint characters, so the iteration
order of the Python set over them does not matter), split the result on
the literal substring "or", split every piece on commas and strip
surrounding whitespace, then tokenize every chunk at internal capitals;
the result is the union over all chunks of their token sets, matching the
single `components` set the source accumulates. -/
def normalize_bread_name (bread_name : List Char) : Finset (List Char) :=
  let scrubbed := strReplaceEmpty (strReplaceEmpty bread_name illegalQuote) illegalMojibake
  let chunks := (pySplit scrubbed ['o', 'r']).flatMap
    (fun or_split => (pySplit or_split [',']).map pyStrip)
  (chunks.map chunkTokens).foldr (fun s acc => s ∪ acc) ∅

/-- The potential function described above. -/
def Bbound (cfg : WeightCfg) (p i j : ℕ) : ℚ :=
  if i < j then ((j - i : ℕ) : ℚ) * min cfg.deletion_cost 1
  else if j < i then ((i - j : ℕ) : ℚ) * min cfg.insertion_cost 1
  else if i ≤ p then 0 else cfg.substitution_cost

/-- A memo state is coherent for a configuration when every stored entry
is a genuine table value for that configuration: its key carries concrete
indices and its value is the corresponding entry of `wld`.  The empty
dictionary of a fresh process is trivially coherent, and the theorem for
claim C3 shows every call of the engine preserves coherence, so the memo
states reachable through calls of a single engine are exactly the
coherent ones. -/
def Coherent (cfg : WeightCfg) (m : Memo) : Prop :=
  ∀ a b : List Char, ∀ i j : Option ℕ, ∀ v : ℚ,
    memoLookup m (a, b, i, j) = some v →
      ∃ i0 j0 : ℕ, i = some i0 ∧ j = some j0 ∧ v = wld cfg a b i0 j0

/-! ### Basic facts about the distance table -/

theorem rmin_eq_min (x y : ℚ) : rmin x y = min x y := (min_def x y).symm

/-- Recursive-case equation of `wld`, matching the `min` of the three
branches in the source. -/
theorem wld_succ_succ (cfg : WeightCfg) (a b : List Char) (i j : ℕ) :
    wld cfg a b (i + 1) (j + 1) =
      rmin (wld cfg a b i (j + 1) + cfg.insertion_cost * 1)
        (rmin (wld cfg a b (i + 1) j + cfg.deletion_cost * 1)
          (wld cfg a b i j + cfg.substitution_cost *
            (if a.getD i ' ' = b.getD j ' ' then 0 else 1))) := rfl

theorem wld_zero (cfg : WeightCfg) (a b : List Char) (j : ℕ) :
    wld cfg a b 0 j = (j : ℚ) := rfl

theorem wld_succ_zero (cfg : WeightCfg) (a b : List Char) (i : ℕ) :
    wld cfg a b (i + 1) 0 = ((i + 1 : ℕ) : ℚ) := rfl

theorem rmin_le_third (x y z : ℚ) : rmin x (rmin y z) ≤ z := by
  rw [rmin_eq_min, rmin_eq_min]
  exact (min_le_right _ _).trans (min_le_right _ _)

theorem le_rmin_iff (x y z w : ℚ) : w ≤ rmin x (rmin y z) ↔ w ≤ x ∧ w ≤ y ∧ w ≤ z := by
  rw [rmin_eq_min, rmin_eq_min, le_min_iff, le_min_iff]

/-- The value of the table at a zero second index. -/
theorem wld_right_zero (cfg : WeightCfg) (a b : List Char) (i : ℕ) :
    wld cfg a b i 0 = (i : ℚ) := by
  cases i with
  | zero => rw [wld_zero]
  | succ k => rw [wld_succ_zero]

theorem ite01_nonneg (c : Prop) [Decidable c] : (0 : ℚ) ≤ if c then 0 else 1 := by
  split <;> norm_num

theorem ite01_le_one (c : Prop) [Decidable c] : (if c then (0 : ℚ) else 1) ≤ 1 := by
  split <;> norm_num

/-- Every table entry is non-negative when the three weights are. -/
theorem wld_nonneg (cfg : WeightCfg) (a b : List Char)
    (h1 : 0 ≤ cfg.insertion_cost) (h2 : 0 ≤ cfg.deletion_cost)
    (h3 : 0 ≤ cfg.substitution_cost) : ∀ i j, 0 ≤ wld cfg a b i j := by
  have main : ∀ s i j, i + j = s → 0 ≤ wld cfg a b i j := by
    intro s
    induction s using Nat.strong_induction_on with
    | _ s ih =>
      intro i j hij
      match i, j with
      | 0, j => rw [wld_zero]; exact j.cast_nonneg
      | i + 1, 0 => rw [wld_succ_zero]; exact (i + 1).cast_nonneg
      | i + 1, j + 1 =>
        have hb1 : 0 ≤ wld cfg a b i (j + 1) := ih (i + (j + 1)) (by omega) i (j + 1) rfl
        have hb2 : 0 ≤ wld cfg a b (i + 1) j := ih ((i + 1) + j) (by omega) (i + 1) j rfl
        have hb3 : 0 ≤ wld cfg a b i j := ih (i + j) (by omega) i j rfl
        rw [wld_succ_succ, le_rmin_iff]
        refine ⟨by linarith, by linarith, ?_⟩
        have := mul_nonneg h3 (ite01_nonneg (a.getD i ' ' = b.getD j ' '))
        linarith
  exact fun i j => main (i + j) i j rfl

/-- Going down the diagonal is free while the compared characters
agree. -/
theorem wld_diag_le (cfg : WeightCfg) (a b : List Char) (m : ℕ)
    (hchars : ∀ k, k < m → a.getD k ' ' = b.getD k ' ') : wld cfg a b m m ≤ 0 := by
  induction m with
  | zero => rw [wld_zero]; norm_num
  | succ k ihk =>
    have hk : wld cfg a b k k ≤ 0 := ihk fun t ht => hchars t (by omega)
    have step : wld cfg a b (k + 1) (k + 1) ≤ wld cfg a b k k + cfg.substitution_cost *
        (if a.getD k ' ' = b.getD k ' ' then 0 else 1) := by
      rw [wld_succ_succ]; exact rmin_le_third _ _ _
    rw [if_pos (hchars k (by omega))] at step
    calc wld cfg a b (k + 1) (k + 1) ≤ wld cfg a b k k + cfg.substitution_cost * 0 := step
      _ ≤ 0 := by linarith


/-! ### A certified lower bound for the one-mismatch configuration

For a pair of equal-length strings whose only mismatch sits at index `p`,
the potential below is a subsolution of the recurrence: away from the
main diagonal a cell can reach the unweighted boundary through free
shifted diagonal steps (paying the leftover length) or close the gap with
deletions respectively insertions, whichever is cheaper; on the diagonal
strictly below the mismatch the table is 0; on or above it every path
pays at least the substitution weight, provided that weight is undercut
neither by one deletion plus one insertion nor by the unweighted
base-case detours. -/

theorem Bbound_of_lt (cfg : WeightCfg) (p : ℕ) {i j : ℕ} (h : i < j) :
    Bbound cfg p i j = ((j - i : ℕ) : ℚ) * min cfg.deletion_cost 1 := by
  rw [Bbound, if_pos h]

theorem Bbound_of_gt (cfg : WeightCfg) (p : ℕ) {i j : ℕ} (h : j < i) :
    Bbound cfg p i j = ((i - j : ℕ) : ℚ) * min cfg.insertion_cost 1 := by
  rw [Bbound, if_neg (by omega), if_pos h]

theorem Bbound_of_eq_le (cfg : WeightCfg) {p i j : ℕ} (hij : i = j) (h : i ≤ p) :
    Bbound cfg p i j = 0 := by
  subst hij
  rw [Bbound, if_neg (lt_irrefl i), if_neg (lt_irrefl i), if_pos h]

theorem Bbound_of_eq_gt (cfg : WeightCfg) {p i j : ℕ} (hij : i = j) (h : p < i) :
    Bbound cfg p i j = cfg.substitution_cost := by
  subst hij
  rw [Bbound, if_neg (lt_irrefl i), if_neg (lt_irrefl i), if_neg (by omega)]

/-- The potential loses at most the insertion weight when the first index
steps down. -/
theorem Bbound_up (cfg : WeightCfg) (p : ℕ)
    (h1 : 0 ≤ cfg.insertion_cost) (h2 : 0 ≤ cfg.deletion_cost)
    (h3 : 0 ≤ cfg.substitution_cost)
    (hSID : cfg.substitution_cost ≤ cfg.insertion_cost + cfg.deletion_cost)
    (hS1I : cfg.substitution_cost ≤ 1 + cfg.insertion_cost) (i j : ℕ) :
    Bbound cfg p (i + 1) j ≤ Bbound cfg p i j + cfg.insertion_cost := by
  have hmD0 : 0 ≤ min cfg.deletion_cost 1 := le_min h2 zero_le_one
  have hmI0 : 0 ≤ min cfg.insertion_cost 1 := le_min h1 zero_le_one
  have hmIle : min cfg.insertion_cost 1 ≤ cfg.insertion_cost := min_le_left _ _
  have hSmD : cfg.substitution_cost ≤ min cfg.deletion_cost 1 + cfg.insertion_cost := by
    rcases le_total cfg.deletion_cost 1 with h | h
    · rw [min_eq_left h]; linarith
    · rw [min_eq_right h]; linarith
  rcases Nat.lt_trichotomy (i + 1) j with hlt | heq | hgt
  · rw [Bbound_of_lt cfg p hlt, Bbound_of_lt cfg p (show i < j by omega)]
    have hcast : ((j - i : ℕ) : ℚ) = ((j - (i + 1) : ℕ) : ℚ) + 1 := by
      have h : j - i = (j - (i + 1)) + 1 := by omega
      rw [h]; push_cast; ring
    rw [hcast]
    nlinarith
  · have hij : i < j := by omega
    rw [Bbound_of_lt cfg p hij]
    have hone : j - i = 1 := by omega
    rw [hone]
    by_cases hp : i + 1 ≤ p
    · rw [Bbound_of_eq_le cfg heq hp]
      push_cast
      nlinarith
    · rw [Bbound_of_eq_gt cfg heq (by omega)]
      push_cast
      linarith
  · by_cases hji : j < i
    · rw [Bbound_of_gt cfg p (show j < i + 1 by omega), Bbound_of_gt cfg p hji]
      have hcast : ((i + 1 - j : ℕ) : ℚ) = ((i - j : ℕ) : ℚ) + 1 := by
        have h : i + 1 - j = (i - j) + 1 := by omega
        rw [h]; push_cast; ring
      rw [hcast]
      nlinarith
    · have hj : j = i := by omega
      rw [Bbound_of_gt cfg p (show j < i + 1 by omega)]
      have hone : i + 1 - j = 1 := by omega
      rw [hone]
      by_cases hp : i ≤ p
      · rw [Bbound_of_eq_le cfg hj.symm (by omega)]
        push_cast
        linarith
      · rw [Bbound_of_eq_gt cfg hj.symm (by omega)]
        push_cast
        linarith

/-- The potential loses at most the deletion weight when the second index
steps down. -/
theorem Bbound_left (cfg : WeightCfg) (p : ℕ)
    (h1 : 0 ≤ cfg.insertion_cost) (h2 : 0 ≤ cfg.deletion_cost)
    (h3 : 0 ≤ cfg.substitution_cost)
    (hSID : cfg.substitution_cost ≤ cfg.insertion_cost + cfg.deletion_cost)
    (hS1D : cfg.substitution_cost ≤ 1 + cfg.deletion_cost) (i j : ℕ) :
    Bbound cfg p i (j + 1) ≤ Bbound cfg p i j + cfg.deletion_cost := by
  have hmD0 : 0 ≤ min cfg.deletion_cost 1 := le_min h2 zero_le_one
  have hmI0 : 0 ≤ min cfg.insertion_cost 1 := le_min h1 zero_le_one
  have hmDle : min cfg.deletion_cost 1 ≤ cfg.deletion_cost := min_le_left _ _
  have hSmI : cfg.substitution_cost ≤ min cfg.insertion_cost 1 + cfg.deletion_cost := by
    rcases le_total cfg.insertion_cost 1 with h | h
    · rw [min_eq_left h]; linarith
    · rw [min_eq_right h]; linarith
  rcases Nat.lt_trichotomy i (j + 1) with hlt | heq | hgt
  · by_cases hij : i < j
    · rw [Bbound_of_lt cfg p hlt, Bbound_of_lt cfg p hij]
      have hcast : ((j + 1 - i : ℕ) : ℚ) = ((j - i : ℕ) : ℚ) + 1 := by
        have h : j + 1 - i = (j - i) + 1 := by omega
        rw [h]; push_cast; ring
      rw [hcast]
      nlinarith
    · have hj : i = j := by omega
      rw [Bbound_of_lt cfg p hlt]
      have hone : j + 1 - i = 1 := by omega
      rw [hone]
      by_cases hp : i ≤ p
      · rw [Bbound_of_eq_le cfg hj hp]
        push_cast
        linarith
      · rw [Bbound_of_eq_gt cfg hj (by omega)]
        push_cast
        linarith
  · have hij : j < i := by omega
    rw [Bbound_of_gt cfg p hij]
    have hone : i - j = 1 := by omega
    rw [hone]
    by_cases hp : i ≤ p
    · rw [Bbound_of_eq_le cfg heq hp]
      push_cast
      nlinarith
    · rw [Bbound_of_eq_gt cfg heq (by omega)]
      push_cast
      linarith
  · rw [Bbound_of_gt cfg p (show j + 1 < i by omega), Bbound_of_gt cfg p (show j < i by omega)]
    have hcast : ((i - j : ℕ) : ℚ) = ((i - (j + 1) : ℕ) : ℚ) + 1 := by
      have h : i - j = (i - (j + 1)) + 1 := by omega
      rw [h]; push_cast; ring
    rw [hcast]
    nlinarith

/-- Away from the mismatch cell the potential does not grow along a
diagonal step. -/
theorem Bbound_diag (cfg : WeightCfg) (p i j : ℕ) (hnot : ¬(i = p ∧ j = p)) :
    Bbound cfg p (i + 1) (j + 1) ≤ Bbound cfg p i j := by
  rcases Nat.lt_trichotomy i j with hlt | heq | hgt
  · rw [Bbound_of_lt cfg p (show i + 1 < j + 1 by omega), Bbound_of_lt cfg p hlt]
    have h : j + 1 - (i + 1) = j - i := by omega
    rw [h]
  · by_cases hp : i + 1 ≤ p
    · rw [Bbound_of_eq_le cfg (show i + 1 = j + 1 by omega) hp,
        Bbound_of_eq_le cfg heq (by omega)]
    · have hip : ¬(i ≤ p) := by
        intro hle
        have hi : i = p := by omega
        exact hnot ⟨hi, by omega⟩
      rw [Bbound_of_eq_gt cfg (show i + 1 = j + 1 by omega) (by omega),
        Bbound_of_eq_gt cfg heq (by omega)]
  · rw [Bbound_of_gt cfg p (show j + 1 < i + 1 by omega), Bbound_of_gt cfg p hgt]
    have h : i + 1 - (j + 1) = i - j := by omega
    rw [h]

/-- The potential is a lower bound for every entry of the table, by strong
induction on `i + j`; only the mismatch at `p` is needed, all other cells
are bounded pessimistically. -/
theorem wld_ge_Bbound (cfg : WeightCfg) (a b : List Char) (p : ℕ)
    (h1 : 0 ≤ cfg.insertion_cost) (h2 : 0 ≤ cfg.deletion_cost)
    (h3 : 0 ≤ cfg.substitution_cost)
    (hSID : cfg.substitution_cost ≤ cfg.insertion_cost + cfg.deletion_cost)
    (hS1I : cfg.substitution_cost ≤ 1 + cfg.insertion_cost)
    (hS1D : cfg.substitution_cost ≤ 1 + cfg.deletion_cost)
    (hne : a.getD p ' ' ≠ b.getD p ' ') :
    ∀ i j, Bbound cfg p i j ≤ wld cfg a b i j := by
  have hmD0 : 0 ≤ min cfg.deletion_cost 1 := le_min h2 zero_le_one
  have hmI0 : 0 ≤ min cfg.insertion_cost 1 := le_min h1 zero_le_one
  have hmD1 : min cfg.deletion_cost 1 ≤ 1 := min_le_right _ _
  have hmI1 : min cfg.insertion_cost 1 ≤ 1 := min_le_right _ _
  have main : ∀ s i j, i + j = s → Bbound cfg p i j ≤ wld cfg a b i j := by
    intro s
    induction s using Nat.strong_induction_on with
    | _ s ih =>
      intro i j hij
      match i, j with
      | 0, 0 =>
        rw [wld_zero, Bbound_of_eq_le cfg rfl (Nat.zero_le p)]
        norm_num
      | 0, j + 1 =>
        rw [wld_zero, Bbound_of_lt cfg p (Nat.succ_pos j)]
        simp only [Nat.sub_zero]
        calc ((j + 1 : ℕ) : ℚ) * min cfg.deletion_cost 1
            ≤ ((j + 1 : ℕ) : ℚ) * 1 := mul_le_mul_of_nonneg_left hmD1 (Nat.cast_nonneg _)
          _ = ((j + 1 : ℕ) : ℚ) := mul_one _
      | i + 1, 0 =>
        rw [wld_succ_zero, Bbound_of_gt cfg p (Nat.succ_pos i)]
        simp only [Nat.sub_zero]
        calc ((i + 1 : ℕ) : ℚ) * min cfg.insertion_cost 1
            ≤ ((i + 1 : ℕ) : ℚ) * 1 := mul_le_mul_of_nonneg_left hmI1 (Nat.cast_nonneg _)
          _ = ((i + 1 : ℕ) : ℚ) := mul_one _
      | i + 1, j + 1 =>
        have hb1 : Bbound cfg p i (j + 1) ≤ wld cfg a b i (j + 1) :=
          ih (i + (j + 1)) (by omega) i (j + 1) rfl
        have hb2 : Bbound cfg p (i + 1) j ≤ wld cfg a b (i + 1) j :=
          ih ((i + 1) + j) (by omega) (i + 1) j rfl
        have hb3 : Bbound cfg p i j ≤ wld cfg a b i j :=
          ih (i + j) (by omega) i j rfl
        rw [wld_succ_succ, le_rmin_iff]
        refine ⟨?_, ?_, ?_⟩
        · have := Bbound_up cfg p h1 h2 h3 hSID hS1I i (j + 1)
          linarith
        · have := Bbound_left cfg p h1 h2 h3 hSID hS1D (i + 1) j
          linarith
        · by_cases hpp : i = p ∧ j = p
          · have hcond : ¬(a.getD i ' ' = b.getD j ' ') := by
              rw [hpp.1, hpp.2]; exact hne
            rw [if_neg hcond, mul_one]
            have hB : Bbound cfg p (i + 1) (j + 1) = cfg.substitution_cost :=
              Bbound_of_eq_gt cfg (by omega) (by omega)
            have hB0 : Bbound cfg p i j = 0 := Bbound_of_eq_le cfg (by omega) (by omega)
            rw [hB]
            rw [hB0] at hb3
            linarith
          · have hdiag := Bbound_diag cfg p i j hpp
            have hsc : 0 ≤ cfg.substitution_cost *
                (if a.getD i ' ' = b.getD j ' ' then 0 else 1) :=
              mul_nonneg h3 (ite01_nonneg _)
            linarith
  exact fun i j => main (i + j) i j rfl

/-- Upper bound along the diagonal: from the mismatch on, one substitution
step and free matching diagonal steps bound the table by the substitution
weight. -/
theorem wld_one_mismatch_ub (cfg : WeightCfg) (a b : List Char) (p : ℕ)
    (h3 : 0 ≤ cfg.substitution_cost)
    (hbefore : ∀ k, k < p → a.getD k ' ' = b.getD k ' ')
    (hafter : ∀ k, p < k → a.getD k ' ' = b.getD k ' ') :
    ∀ t, wld cfg a b (p + 1 + t) (p + 1 + t) ≤ cfg.substitution_cost := by
  intro t
  induction t with
  | zero =>
    have hpp : wld cfg a b p p ≤ 0 := wld_diag_le cfg a b p hbefore
    have step : wld cfg a b (p + 1) (p + 1) ≤ wld cfg a b p p + cfg.substitution_cost *
        (if a.getD p ' ' = b.getD p ' ' then 0 else 1) := by
      rw [wld_succ_succ]; exact rmin_le_third _ _ _
    have hub : cfg.substitution_cost * (if a.getD p ' ' = b.getD p ' ' then (0 : ℚ) else 1) ≤
        cfg.substitution_cost * 1 :=
      mul_le_mul_of_nonneg_left (ite01_le_one _) h3
    calc wld cfg a b (p + 1 + 0) (p + 1 + 0) = wld cfg a b (p + 1) (p + 1) := rfl
      _ ≤ cfg.substitution_cost := by linarith
  | succ t iht =>
    have step : wld cfg a b (p + 1 + t + 1) (p + 1 + t + 1) ≤
        wld cfg a b (p + 1 + t) (p + 1 + t) + cfg.substitution_cost *
          (if a.getD (p + 1 + t) ' ' = b.getD (p + 1 + t) ' ' then 0 else 1) := by
      rw [wld_succ_succ]; exact rmin_le_third _ _ _
    rw [if_pos (hafter (p + 1 + t) (by omega))] at step
    calc wld cfg a b (p + 1 + (t + 1)) (p + 1 + (t + 1))
        = wld cfg a b (p + 1 + t + 1) (p + 1 + t + 1) := rfl
      _ ≤ cfg.substitution_cost := by linarith

/-- The exact value of the Distance Engine on a substitution-only pair:
equal lengths, a single mismatch at index `p`, weights non-negative and
the substitution weight undercut neither by a deletion plus an insertion
nor by the two unweighted base-case detours. -/
theorem distance_one_mismatch (cfg : WeightCfg) (a b : List Char) (p : ℕ)
    (h1 : 0 ≤ cfg.insertion_cost) (h2 : 0 ≤ cfg.deletion_cost)
    (h3 : 0 ≤ cfg.substitution_cost)
    (hSID : cfg.substitution_cost ≤ cfg.insertion_cost + cfg.deletion_cost)
    (hS1I : cfg.substitution_cost ≤ 1 + cfg.insertion_cost)
    (hS1D : cfg.substitution_cost ≤ 1 + cfg.deletion_cost)
    (hlen : a.length = b.length) (hp : p < a.length)
    (hne : a.getD p ' ' ≠ b.getD p ' ')
    (hmatch : ∀ k, k < a.length → k ≠ p → a.getD k ' ' = b.getD k ' ') :
    distance cfg a b = cfg.substitution_cost := by
  have hmatch' : ∀ k, k ≠ p → a.getD k ' ' = b.getD k ' ' := by
    intro k hk
    by_cases hlt : k < a.length
    · exact hmatch k hlt hk
    · push_neg at hlt
      rw [List.getD_eq_default _ _ hlt, List.getD_eq_default _ _ (by omega)]
  have hub : wld cfg a b a.length a.length ≤ cfg.substitution_cost := by
    have ht : a.length = p + 1 + (a.length - p - 1) := by omega
    rw [ht]
    exact wld_one_mismatch_ub cfg a b p h3 (fun k hk => hmatch' k (by omega))
      (fun k hk => hmatch' k (by omega)) (a.length - p - 1)
  have hlb : cfg.substitution_cost ≤ wld cfg a b a.length a.length := by
    have hB := wld_ge_Bbound cfg a b p h1 h2 h3 hSID hS1I hS1D hne a.length a.length
    rwa [Bbound_of_eq_gt cfg rfl (by omega)] at hB
  have hdist : distance cfg a b = wld cfg a b a.length a.length := by
    rw [distance, ← hlen]
  rw [hdist]
  exact le_antisymm hub hlb

/-! ### Transparency of the memo for a fixed configuration -/

theorem wldMemo_hit (cfg : WeightCfg) (fuel : ℕ) (a b : List Char)
    (i j : Option ℕ) (m : Memo) (v : ℚ)
    (hlook : memoLookup m (a, b, i, j) = some v) :
    wldMemo cfg (fuel + 1) a b i j m = (v, m) := by
  simp only [wldMemo, hlook]

theorem wldMemo_base_i (cfg : WeightCfg) (fuel : ℕ) (a b : List Char)
    (i j : Option ℕ) (m : Memo)
    (hlook : memoLookup m (a, b, i, j) = none) (hi : i.getD a.length = 0) :
    wldMemo cfg (fuel + 1) a b i j m = ((j.getD b.length : ℚ), m) := by
  simp only [wldMemo, hlook, hi, if_pos]

theorem wldMemo_base_j (cfg : WeightCfg) (fuel : ℕ) (a b : List Char)
    (i j : Option ℕ) (m : Memo)
    (hlook : memoLookup m (a, b, i, j) = none)
    (hi : i.getD a.length ≠ 0) (hj : j.getD b.length = 0) :
    wldMemo cfg (fuel + 1) a b i j m = ((i.getD a.length : ℚ), m) := by
  simp only [wldMemo, hlook, hj, if_pos, if_neg hi]

theorem wldMemo_rec (cfg : WeightCfg) (fuel : ℕ) (a b : List Char)
    (i j : Option ℕ) (m : Memo)
    (hlook : memoLookup m (a, b, i, j) = none)
    (hi : i.getD a.length ≠ 0) (hj : j.getD b.length ≠ 0) :
    wldMemo cfg (fuel + 1) a b i j m =
      (let i0 := i.getD a.length
       let j0 := j.getD b.length
       let r1 := wldMemo cfg fuel a b (some (i0 - 1)) (some j0) m
       let r2 := wldMemo cfg fuel a b (some i0) (some (j0 - 1)) r1.2
       let r3 := wldMemo cfg fuel a b (some (i0 - 1)) (some (j0 - 1)) r2.2
       let v := rmin (r1.1 + cfg.insertion_cost * 1)
         (rmin (r2.1 + cfg.deletion_cost * 1)
           (r3.1 + cfg.substitution_cost *
             (if a.getD (i0 - 1) ' ' = b.getD (j0 - 1) ' ' then 0 else 1)))
       (v, ((a, b, some i0, some j0), v) :: r3.2)) := by
  simp only [wldMemo, hlook, if_neg hi, if_neg hj]

/-- Memoized and cache-free engine agree for one configuration: against
any coherent memo state, with fuel above `i + j`, the memoized call
returns the table value and leaves a coherent memo behind. -/
theorem wldMemo_eq_wld (cfg : WeightCfg) :
    ∀ (fuel : ℕ) (a b : List Char) (i j : Option ℕ) (m : Memo),
      Coherent cfg m → i.getD a.length + j.getD b.length < fuel →
      (wldMemo cfg fuel a b i j m).1 = wld cfg a b (i.getD a.length) (j.getD b.length) ∧
        Coherent cfg (wldMemo cfg fuel a b i j m).2 := by
  intro fuel
  induction fuel with
  | zero => intro a b i j m _ hf; exact absurd hf (by omega)
  | succ fuel ihf =>
    intro a b i j m hm hf
    cases hlook : memoLookup m (a, b, i, j) with
    | some v =>
      obtain ⟨i0, j0, hi, hj, hv⟩ := hm a b i j v hlook
      rw [wldMemo_hit cfg fuel a b i j m v hlook]
      subst hi
      subst hj
      simp only [Option.getD_some]
      exact ⟨hv, hm⟩
    | none =>
      by_cases hi : i.getD a.length = 0
      · rw [wldMemo_base_i cfg fuel a b i j m hlook hi, hi]
        exact ⟨(wld_zero cfg a b _).symm, hm⟩
      · by_cases hj : j.getD b.length = 0
        · rw [wldMemo_base_j cfg fuel a b i j m hlook hi hj, hj]
          exact ⟨(wld_right_zero cfg a b _).symm, hm⟩
        · obtain ⟨k, hk⟩ : ∃ k, i.getD a.length = k + 1 :=
            ⟨i.getD a.length - 1, by omega⟩
          obtain ⟨l, hl⟩ : ∃ l, j.getD b.length = l + 1 :=
            ⟨j.getD b.length - 1, by omega⟩
          rw [hk, hl] at hf
          simp only [wldMemo, hlook, if_neg hi, if_neg hj, hk, hl, Nat.add_sub_cancel]
          rw [if_neg (Nat.succ_ne_zero k), if_neg (Nat.succ_ne_zero l)]
          obtain ⟨h1v, h1c⟩ := ihf a b (some k) (some (l + 1)) m hm
            (by simp only [Option.getD_some]; omega)
          obtain ⟨h2v, h2c⟩ := ihf a b (some (k + 1)) (some l)
            (wldMemo cfg fuel a b (some k) (some (l + 1)) m).2 h1c
            (by simp only [Option.getD_some]; omega)
          obtain ⟨h3v, h3c⟩ := ihf a b (some k) (some l)
            (wldMemo cfg fuel a b (some (k + 1)) (some l)
              (wldMemo cfg fuel a b (some k) (some (l + 1)) m).2).2 h2c
            (by simp only [Option.getD_some]; omega)
          simp only [Option.getD_some] at h1v h2v h3v
          constructor
          · rw [h1v, h2v, h3v, wld_succ_succ]
          · intro a' b' i' j' v' hlk
            simp only [memoLookup] at hlk
            by_cases hkey : ((a, b, some (k + 1), some (l + 1)) : MemoKey) = (a', b', i', j')
            · rw [if_pos hkey] at hlk
              obtain ⟨rfl, rfl, rfl, rfl⟩ :
                  a = a' ∧ b = b' ∧ (some (k + 1) : Option ℕ) = i' ∧
                    (some (l + 1) : Option ℕ) = j' := by
                have h1 := congrArg Prod.fst hkey
                have h2 := congrArg (fun t : MemoKey => t.2.1) hkey
                have h3 := congrArg (fun t : MemoKey => t.2.2.1) hkey
                have h4 := congrArg (fun t : MemoKey => t.2.2.2) hkey
                exact ⟨h1, h2, h3, h4⟩
              rw [h1v, h2v, h3v] at hlk
              refine ⟨k + 1, l + 1, rfl, rfl, ?_⟩
              rw [wld_succ_succ]
              exact (Option.some.inj hlk).symm
            · rw [if_neg hkey] at hlk
              exact h3c a' b' i' j' v' hlk

/-! ### Sorting pairs by the second component, then projecting -/

theorem map_fst_orderedInsert {α : Type} (f : α → ℚ) (x : α) :
    ∀ L : List (α × ℚ), (∀ z ∈ L, z.2 = f z.1) →
      (L.orderedInsert (fun u v => u.2 ≤ v.2) (x, f x)).map Prod.fst =
        (L.map Prod.fst).orderedInsert (fun u v => f u ≤ f v) x := by
  intro L
  induction L with
  | nil => intro _; rfl
  | cons z L ihL =>
    intro hL
    have hz : z.2 = f z.1 := hL z (List.mem_cons_self z L)
    have hrest : ∀ w ∈ L, w.2 = f w.1 := fun w hw => hL w (List.mem_cons_of_mem z hw)
    simp only [List.map_cons, List.orderedInsert]
    by_cases hc : f x ≤ f z.1
    · rw [if_pos (show (x, f x).2 ≤ z.2 by rw [hz]; exact hc), if_pos hc]
      simp
    · rw [if_neg (show ¬(x, f x).2 ≤ z.2 by rw [hz]; exact hc), if_neg hc]
      simp only [List.map_cons]
      rw [ihL hrest]

/-- Stable-sorting the `(reference, score)` pairs by score and projecting
the references is the same as stable-sorting the references by their
score. -/
theorem map_fst_insertionSort {α : Type} (f : α → ℚ) (l : List α) :
    ((l.map fun e => (e, f e)).insertionSort fun u v => u.2 ≤ v.2).map Prod.fst =
      l.insertionSort fun u v => f u ≤ f v := by
  induction l with
  | nil => rfl
  | cons e l ihl =>
    simp only [List.map_cons, List.insertionSort]
    have hmem : ∀ z ∈ (l.map fun e => (e, f e)).insertionSort fun u v : α × ℚ => u.2 ≤ v.2,
        z.2 = f z.1 := by
      intro z hz
      have hz2 : z ∈ l.map fun e => (e, f e) := (List.perm_insertionSort _ _).mem_iff.mp hz
      obtain ⟨y, _, rfl⟩ := List.mem_map.mp hz2
      rfl
    rw [map_fst_orderedInsert f e _ hmem, ihl]

/-! ### The claims -/

/-- Claim C1, counterexample: the claim promises that for a pair of
equal-length strings differing in exactly one position and any
non-negative weights, the distance equals the substitution weight.  For
the pair "ab" and "ac" under weights `(1, 1, 3)` the engine instead
answers 2: deleting and inserting (cost 1 + 1) undercuts the raised
substitution weight 3. -/
theorem claim_C1_counterexample :
    distance ⟨1, 1, 3⟩ ['a', 'b'] ['a', 'c'] = 2 ∧
      distance ⟨1, 1, 3⟩ ['a', 'b'] ['a', 'c'] ≠ (⟨1, 1, 3⟩ : WeightCfg).substitution_cost := by
  decide

/-- Claim C1 (amended): for equal-length strings differing in exactly one
position and non-negative weights, the distance equals the substitution
weight provided that weight is undercut neither by one insertion plus one
deletion nor by the unweighted base-case detours, i.e.
`substitution_cost ≤ insertion_cost + deletion_cost`,
`substitution_cost ≤ 1 + insertion_cost`, and
`substitution_cost ≤ 1 + deletion_cost`. -/
theorem claim_C1 (cfg : WeightCfg) (a b : List Char) (p : ℕ)
    (h1 : 0 ≤ cfg.insertion_cost) (h2 : 0 ≤ cfg.deletion_cost)
    (h3 : 0 ≤ cfg.substitution_cost)
    (hSID : cfg.substitution_cost ≤ cfg.insertion_cost + cfg.deletion_cost)
    (hS1I : cfg.substitution_cost ≤ 1 + cfg.insertion_cost)
    (hS1D : cfg.substitution_cost ≤ 1 + cfg.deletion_cost)
    (hlen : a.length = b.length) (hp : p < a.length)
    (hne : a.getD p ' ' ≠ b.getD p ' ')
    (hmatch : ∀ k, k < a.length → k ≠ p → a.getD k ' ' = b.getD k ' ') :
    distance cfg a b = cfg.substitution_cost :=
  distance_one_mismatch cfg a b p h1 h2 h3 hSID hS1I hS1D hlen hp hne hmatch

/-- Witness for claim C1 at the pair "ab", "ac" with weights
`(1, 1, 2)`. -/
theorem claim_C1_witness :
    (0 : ℚ) ≤ 2 ∧ (2 : ℚ) ≤ 1 + 1 ∧
      distance ⟨1, 1, 2⟩ ['a', 'b'] ['a', 'c'] = (⟨1, 1, 2⟩ : WeightCfg).substitution_cost :=
  ⟨by norm_num, by norm_num,
    claim_C1 ⟨1, 1, 2⟩ ['a', 'b'] ['a', 'c'] 1 (by norm_num) (by norm_num) (by norm_num)
      (by norm_num) (by norm_num) (by norm_num) rfl (by decide) (by decide)
      (fun k hk hkp => by
        match k with
        | 0 => rfl
        | 1 => exact absurd rfl hkp
        | n + 2 => exact absurd hk (by simp only [List.length_cons, List.length_nil]; omega))⟩

/-- Claim C2, counterexample: `normalize("CornBread")` is claimed to be
the set containing "Corn" and "Bread"; it is not, because the entry is
first split on the literal substring "or", which occurs inside "Corn". -/
theorem claim_C2_counterexample :
    normalize_bread_name ['C', 'o', 'r', 'n', 'B', 'r', 'e', 'a', 'd'] ≠
      ({['C', 'o', 'r', 'n'], ['B', 'r', 'e', 'a', 'd']} : Finset (List Char)) := by
  decide

/-- Claim C2 (amended): `normalize("CornBread")` returns exactly the
three-element set containing "C", "n" and "Bread": the split on "or"
inside "Corn" yields chunks "C" and "nBread", and the internal capital
"B" of "nBread", preceded by the letter "n", splits that chunk into "n"
and "Bread". -/
theorem claim_C2 :
    normalize_bread_name ['C', 'o', 'r', 'n', 'B', 'r', 'e', 'a', 'd'] =
      ({['C'], ['n'], ['B', 'r', 'e', 'a', 'd']} : Finset (List Char)) := by
  decide

/-- Claim C3, counterexample: the memo is keyed only by
`(a, b, i, j)` and is shared by every engine of the process, so it is not
observably transparent across engines.  An engine with all-zero weights
first ranks the pair "ab", "ac"; a second engine with weights
`(1, 100, 100)` then computes distance 1 for the same pair from the
poisoned cache, while with no cache it computes 4. -/
theorem claim_C3_counterexample :
    (weighted_levenshtein_distance ⟨1, 100, 100⟩ ['a', 'b'] ['a', 'c']
        (weighted_levenshtein_distance ⟨0, 0, 0⟩ ['a', 'b'] ['a', 'c'] []).2).1 = 1 ∧
      (weighted_levenshtein_distance ⟨1, 100, 100⟩ ['a', 'b'] ['a', 'c'] []).1 = 4 := by
  decide

/-- Claim C3 (amended): the memo is observably transparent for a fixed
weight configuration: against any cache state that is coherent for that
configuration — the empty state of a fresh process is, and by this
very statement every state left behind by prior calls of the same
engine is —
the memoized computation returns exactly the cache-free table value, and
leaves a coherent state behind.  The fuel bound is met by every actual
call, which supplies `len(a) + len(b) + 1`. -/
theorem claim_C3 (cfg : WeightCfg) (fuel : ℕ) (a b : List Char)
    (i j : Option ℕ) (m : Memo) (hm : Coherent cfg m)
    (hf : i.getD a.length + j.getD b.length < fuel) :
    (wldMemo cfg fuel a b i j m).1 = wld cfg a b (i.getD a.length) (j.getD b.length) ∧
      Coherent cfg (wldMemo cfg fuel a b i j m).2 :=
  wldMemo_eq_wld cfg fuel a b i j m hm hf

/-- Witness for claim C3: a top-level call on "ab", "ac" with the empty
memo of a fresh process. -/
theorem claim_C3_witness :
    (wldMemo ⟨1, 2, 2⟩ 5 ['a', 'b'] ['a', 'c'] none none []).1 =
        wld ⟨1, 2, 2⟩ ['a', 'b'] ['a', 'c'] 2 2 ∧
      Coherent ⟨1, 2, 2⟩ (wldMemo ⟨1, 2, 2⟩ 5 ['a', 'b'] ['a', 'c'] none none []).2 :=
  claim_C3 ⟨1, 2, 2⟩ 5 ['a', 'b'] ['a', 'c'] none none []
    (fun a b i j v h => nomatch h) (by decide)

/-- Claim C4, counterexample: a thread count of 0 is not rejected: Python
truthiness sends `threading=0` down the sequential branch, which computes
the full ranking. -/
theorem claim_C4_counterexample :
    best_breads_for_name ⟨1, 2, 2⟩ [['b', 'r', 'e', 'a', 'd']] ['x'] (some 0) =
      .ok [['b', 'r', 'e', 'a', 'd']] := rfl

/-- Claim C4 (amended): a strictly negative thread count is rejected
immediately with the `ValueError` of the thread pool, before any ranking
work; a thread count of 0 is instead treated like an unset one and ranks
sequentially. -/
theorem claim_C4 (cfg : WeightCfg) (every_bread : List (List Char))
    (name : List Char) (n : ℤ) (hn : n < 0) :
    best_breads_for_name cfg every_bread name (some n) =
        .error "Number of processes must be at least 1" ∧
      best_breads_for_name cfg every_bread name (some 0) =
        best_breads_for_name cfg every_bread name none := by
  constructor
  · simp only [best_breads_for_name]
    rw [if_neg (show ¬n = 0 by omega), if_pos (show n < 1 by omega)]
  · simp only [best_breads_for_name, if_true]

/-- Witness for claim C4 at thread count `-1`. -/
theorem claim_C4_witness :
    (-1 : ℤ) < 0 ∧
      (best_breads_for_name ⟨1, 2, 2⟩ [['b', 'r', 'e', 'a', 'd']] ['x'] (some (-1)) =
          .error "Number of processes must be at least 1" ∧
        best_breads_for_name ⟨1, 2, 2⟩ [['b', 'r', 'e', 'a', 'd']] ['x'] (some 0) =
          best_breads_for_name ⟨1, 2, 2⟩ [['b', 'r', 'e', 'a', 'd']] ['x'] none) :=
  ⟨by decide, claim_C4 ⟨1, 2, 2⟩ [['b', 'r', 'e', 'a', 'd']] ['x'] (-1) (by decide)⟩

/-- Claim C5, counterexample: a negative weight is claimed to produce an
error; instead the engine silently returns a number — here 0 for the
differing strings "ab" and "ac" under insertion weight `-1`. -/
theorem claim_C5_counterexample :
    distance ⟨-1, 1, 1⟩ ['a', 'b'] ['a', 'c'] = 0 := by decide

/-- Claim C5 (amended): the engine performs no validation of the weights;
with a negative weight it silently computes a numeric result, which can
even be negative — here `-9` for "ab" against "a" under insertion weight
`-5`. -/
theorem claim_C5 :
    distance ⟨-5, 1, 1⟩ ['a', 'b'] ['a'] = -9 ∧
      distance ⟨-5, 1, 1⟩ ['a', 'b'] ['a'] < 0 := by decide

/-- Claim C6: ranking with any positive thread count returns exactly the
sequence of the sequential (unset) run: the pool preserves input order,
both branches stable-sort by the same score, and projecting the scored
pairs commutes with the sort. -/
theorem claim_C6 (cfg : WeightCfg) (every_bread : List (List Char))
    (name : List Char) (n : ℤ) (hn : 0 < n) :
    best_breads_for_name cfg every_bread name (some n) =
      best_breads_for_name cfg every_bread name none := by
  simp only [best_breads_for_name]
  rw [if_neg (show ¬n = 0 by omega), if_neg (show ¬n < 1 by omega)]
  exact congrArg Except.ok
    (map_fst_insertionSort (fun bread => distance cfg (pyLower name) (pyLower bread)) every_bread)

/-- Witness for claim C6 at thread count 4 on a two-element corpus. -/
theorem claim_C6_witness :
    (0 : ℤ) < 4 ∧
      best_breads_for_name ⟨1, 2, 2⟩ [['b', 'r', 'a', 'n'], ['b', 'r', 'e', 'a', 'd']]
          ['b', 'r', 'e', 'd'] (some 4) =
        best_breads_for_name ⟨1, 2, 2⟩ [['b', 'r', 'a', 'n'], ['b', 'r', 'e', 'a', 'd']]
          ['b', 'r', 'e', 'd'] none :=
  ⟨by decide,
    claim_C6 ⟨1, 2, 2⟩ [['b', 'r', 'a', 'n'], ['b', 'r', 'e', 'a', 'd']]
      ['b', 'r', 'e', 'd'] 4 (by decide)⟩

/-- Claim C7: the sequential ranking returns every corpus reference
exactly once — a permutation of the corpus, without duplicates when the
corpus (a Python set) has none — sorted ascending by the weighted
distance between the lowercased candidate and the lowercased
reference. -/
theorem claim_C7 (cfg : WeightCfg) (every_bread : List (List Char))
    (name : List Char) (hnd : every_bread.Nodup) :
    ∃ ranked : List (List Char),
      best_breads_for_name cfg every_bread name none = .ok ranked ∧
        ranked.Perm every_bread ∧ ranked.Nodup ∧
        ranked.Sorted (fun x y =>
          distance cfg (pyLower name) (pyLower x) ≤
            distance cfg (pyLower name) (pyLower y)) := by
  refine ⟨every_bread.insertionSort (fun x y =>
    distance cfg (pyLower name) (pyLower x) ≤ distance cfg (pyLower name) (pyLower y)),
    rfl, List.perm_insertionSort _ _, ?_, ?_⟩
  · exact ((List.perm_insertionSort _ _).nodup_iff).mpr hnd
  · haveI : IsTotal (List Char) (fun x y =>
        distance cfg (pyLower name) (pyLower x) ≤ distance cfg (pyLower name) (pyLower y)) :=
      ⟨fun x y => le_total _ _⟩
    haveI : IsTrans (List Char) (fun x y =>
        distance cfg (pyLower name) (pyLower x) ≤ distance cfg (pyLower name) (pyLower y)) :=
      ⟨fun x y z h h2 => le_trans h h2⟩
    exact List.sorted_insertionSort _ _

/-- Witness for claim C7 on the corpus of "bread", "bran", "brioche". -/
theorem claim_C7_witness :
    ([['b', 'r', 'e', 'a', 'd'], ['b', 'r', 'a', 'n'],
        ['b', 'r', 'i', 'o', 'c', 'h', 'e']] : List (List Char)).Nodup ∧
      ∃ ranked : List (List Char),
        best_breads_for_name ⟨1, 1, 1⟩
            [['b', 'r', 'e', 'a', 'd'], ['b', 'r', 'a', 'n'],
              ['b', 'r', 'i', 'o', 'c', 'h', 'e']] ['b', 'r', 'e', 'd'] none = .ok ranked ∧
          ranked.Perm [['b', 'r', 'e', 'a', 'd'], ['b', 'r', 'a', 'n'],
              ['b', 'r', 'i', 'o', 'c', 'h', 'e']] ∧ ranked.Nodup ∧
          ranked.Sorted (fun x y =>
            distance ⟨1, 1, 1⟩ (pyLower ['b', 'r', 'e', 'd']) (pyLower x) ≤
              distance ⟨1, 1, 1⟩ (pyLower ['b', 'r', 'e', 'd']) (pyLower y)) :=
  ⟨by decide,
    claim_C7 ⟨1, 1, 1⟩ [['b', 'r', 'e', 'a', 'd'], ['b', 'r', 'a', 'n'],
      ['b', 'r', 'i', 'o', 'c', 'h', 'e']] ['b', 'r', 'e', 'd'] (by decide)⟩

/-- Claim C8: against the empty string the distance is the raw length of
the other string, in both argument orders, for every weight
configuration: the base cases of the recursion are unweighted. -/
theorem claim_C8 (cfg : WeightCfg) (s : List Char) :
    distance cfg s [] = (s.length : ℚ) ∧ distance cfg [] s = (s.length : ℚ) := by
  constructor
  · rw [distance]
    simp only [List.length_nil]
    exact wld_right_zero cfg s [] s.length
  · rw [distance]
    simp only [List.length_nil]
    exact wld_zero cfg [] s s.length

/-- Claim C9: the distance of a string to itself is 0 for every
non-negative weight configuration: the matching diagonal is free, and
non-negative weights keep every table entry non-negative. -/
theorem claim_C9 (cfg : WeightCfg) (s : List Char)
    (h1 : 0 ≤ cfg.insertion_cost) (h2 : 0 ≤ cfg.deletion_cost)
    (h3 : 0 ≤ cfg.substitution_cost) : distance cfg s s = 0 :=
  le_antisymm (wld_diag_le cfg s s s.length fun _ _ => rfl)
    (wld_nonneg cfg s s h1 h2 h3 s.length s.length)

/-- Witness for claim C9 on the string "ab" with the custom weights of
the entry point. -/
theorem claim_C9_witness :
    (0 : ℚ) ≤ 1 ∧ distance ⟨1, 2, 2⟩ ['a', 'b'] ['a', 'b'] = 0 :=
  ⟨by norm_num, claim_C9 ⟨1, 2, 2⟩ ['a', 'b'] (by norm_num) (by norm_num) (by norm_num)⟩

/-- Claim C10: the normalizer can emit the empty string as a token: the
entry "Baguette, " (comma followed by trailing whitespace) splits into
the chunks "Baguette" and "", and the empty chunk contributes the empty
slice `chunk[0:0]`, so the empty string enters the corpus. -/
theorem claim_C10 :
    [] ∈ normalize_bread_name ['B', 'a', 'g', 'u', 'e', 't', 't', 'e', ',', ' '] := by
  decide
